import Mathlib

/-!
A shallow embedding of the SIMPLEFEM notebook (src/simplefem.ipynb): mesh
initialization, uniform refinement with exact node deduplication, stiffness
assembly with homogeneous Dirichlet boundary correction, Cuthill-McKee
reordering bookkeeping, right-hand-side construction, and the solve step.

Float64 arithmetic is modelled by exact rational arithmetic. Every concrete
computation evaluated by the theorems below is exact in binary floating
point as well (all intermediate values are small dyadic rationals, and every
quotient taken is exactly representable), so on these inputs the rational
model agrees bit for bit with the float64 run, and the algebraic identities
proved (symmetry, row structure) come from identical operations applied in
identical order, which float64 also maps to identical results.
-/

namespace SimpleFem

abbrev Point := ℚ × ℚ

abbrev Element := ℕ × ℕ × ℕ

abbrev Mat := ℕ → ℕ → ℚ

/-- Mesh state: the global variables coord, elem and emax of the notebook. -/
structure Mesh where
  coord : List Point
  elem : List Element
  emax : List (ℕ × ℕ)

/-- The node index e[k] of an element, for k = 0, 1, 2. -/
def ndIdx (e : Element) : Fin 3 → ℕ := ![e.1, e.2.1, e.2.2]

/-- Function initial(): the canonical 9-node, 8-element unit-square
triangulation with the single level [0, 7]. -/
def initial : Mesh where
  coord := [(0, 0), (1/2, 0), (1, 0),
            (0, 1/2), (1/2, 1/2), (1, 1/2),
            (0, 1), (1/2, 1), (1, 1)]
  elem := [(0, 4, 3), (4, 0, 1), (1, 5, 4), (5, 1, 2),
           (3, 7, 6), (7, 3, 4), (4, 8, 7), (8, 4, 5)]
  emax := [(0, 7)]

/-- The linear scan with early break over coord: the first index whose stored
point compares exactly equal to p. -/
def findNode (c : List Point) (p : Point) : Option ℕ :=
  match c with
  | [] => none
  | q :: rest => if q = p then some 0 else (findNode rest p).map (· + 1)

/-- Lookup-or-append used by elemrefine for each edge midpoint: the index of
an existing exactly-equal node if one exists, else the index of p freshly
appended at the end of coord. -/
def addNode (c : List Point) (p : Point) : ℕ × List Point :=
  match findNode c p with
  | some i => (i, c)
  | none => (c.length, c ++ [p])

/-- Edge midpoint 0.5 * (a + b), componentwise. -/
def midp (a b : Point) : Point := ((a.1 + b.1) / 2, (a.2 + b.2) / 2)

/-- coord[i] of a mesh (indices used by the notebook are always in range). -/
def coordAt (m : Mesh) (i : ℕ) : Point := m.coord.getD i (0, 0)

/-- elem[ie] of a mesh (indices used by the notebook are always in range). -/
def elemAt (m : Mesh) (ie : ℕ) : Element := m.elem.getD ie (0, 0, 0)

/-- Function elemrefine(ie): deduplicated insertion of the three edge
midpoints of parent ie, then the four child elements are appended, in the
fixed order corner, corner, corner, central. -/
def elemrefine (m : Mesh) (ie : ℕ) : Mesh :=
  let e := elemAt m ie
  let n1 := midp (coordAt m e.1) (coordAt m e.2.1)
  let n2 := midp (coordAt m e.2.1) (coordAt m e.2.2)
  let n3 := midp (coordAt m e.1) (coordAt m e.2.2)
  let r1 := addNode m.coord n1
  let r2 := addNode r1.2 n2
  let r3 := addNode r2.2 n3
  { coord := r3.2,
    elem := m.elem ++ [(e.1, r1.1, r3.1), (r1.1, e.2.1, r2.1),
                       (r3.1, r2.1, e.2.2), (r2.1, r3.1, r1.1)],
    emax := m.emax }

/-- The finest level emax[-1], as a closed interval of element indices. -/
def finest (m : Mesh) : ℕ × ℕ := m.emax.getLastD (0, 0)

/-- The element indices range(emax[-1][0], emax[-1][1] + 1) of the finest
level. -/
def finestIdx (m : Mesh) : List ℕ :=
  (List.range ((finest m).2 + 1 - (finest m).1)).map (fun k => (finest m).1 + k)

/-- One round of the loop body of refine: every element of the current finest
level is refined into 4 children, and a new level spanning icnt = 4 * count
elements starting right after the previous level end is recorded. -/
def refineRound (m : Mesh) : Mesh :=
  let lv := finest m
  let m1 := (finestIdx m).foldl elemrefine m
  { coord := m1.coord, elem := m1.elem,
    emax := m.emax ++ [(lv.2 + 1, lv.2 + 4 * (lv.2 + 1 - lv.1))] }

/-- Function refine(lvl): lvl rounds of uniform refinement. -/
def refine (lvl : ℕ) (m : Mesh) : Mesh := refineRound^[lvl] m

/-- Function area(ie): the signed area 0.5 * cross(c1 - c0, c2 - c0). -/
def area (m : Mesh) (ie : ℕ) : ℚ :=
  let e := elemAt m ie
  let c0 := coordAt m e.1
  let c1 := coordAt m e.2.1
  let c2 := coordAt m e.2.2
  1/2 * ((c1.1 - c0.1) * (c2.2 - c0.2) - (c1.2 - c0.2) * (c2.1 - c0.1))

/-- Function elstiff(ie): the local 3x3 stiffness matrix. A zero denominator
raises ZeroDivisionError in the notebook, modelled as none. The symmetric
entries are assigned from one shared expression, exactly as the source
writes a[1,0] = a[0,1] = expr. -/
def elstiff (m : Mesh) (ie : ℕ) : Option (Fin 3 → Fin 3 → ℚ) :=
  let e := elemAt m ie
  let p1 := coordAt m e.1
  let p2 := coordAt m e.2.1
  let p3 := coordAt m e.2.2
  let d1 := (p1.1 - p2.1) * (p3.2 - p2.2) - (p3.1 - p2.1) * (p1.2 - p2.2)
  let d2 := (p2.1 - p3.1) * (p1.2 - p3.2) - (p1.1 - p3.1) * (p2.2 - p3.2)
  let d3 := (p3.1 - p1.1) * (p2.2 - p1.2) - (p2.1 - p1.1) * (p3.2 - p1.2)
  if d1 = 0 ∨ d2 = 0 ∨ d3 = 0 then none else
  let dxb1 := (p3.2 - p2.2) / d1
  let dyb1 := (p3.1 - p2.1) / d1
  let dxb2 := (p1.2 - p3.2) / d2
  let dyb2 := (p1.1 - p3.1) / d2
  let dxb3 := (p2.2 - p1.2) / d3
  let dyb3 := (p2.1 - p1.1) / d3
  let ar := area m ie
  some ![![ar * (dxb1 * dxb1 + dyb1 * dyb1), ar * (dxb2 * dxb1 + dyb2 * dyb1),
           ar * (dxb3 * dxb1 + dyb3 * dyb1)],
         ![ar * (dxb2 * dxb1 + dyb2 * dyb1), ar * (dxb2 * dxb2 + dyb2 * dyb2),
           ar * (dxb3 * dxb2 + dyb3 * dyb2)],
         ![ar * (dxb3 * dxb1 + dyb3 * dyb1), ar * (dxb3 * dxb2 + dyb3 * dyb2),
           ar * (dxb3 * dxb3 + dyb3 * dyb3)]]

/-- The nine updates A[e[k], e[l]] += ae[k, l] of one element, written
pointwise: each entry of the updated matrix is the old entry plus the sum of
the matching local contributions (exact addition is commutative and
associative, so this is the net effect of the nine sequential updates). -/
def accumElem (A : Mat) (e : Element) (ae : Fin 3 → Fin 3 → ℚ) : Mat :=
  fun i j => A i j + ∑ k : Fin 3, ∑ l : Fin 3,
    if ndIdx e k = i ∧ ndIdx e l = j then ae k l else 0

/-- The assembly loop over the finest-level elements. The Bool is the abort
flag: true when a ZeroDivisionError on a degenerate element interrupted the
loop, in which case the matrix accumulated so far is what remains. -/
def assembleLoop (m : Mesh) : List ℕ → Mat → Mat × Bool
  | [], A => (A, false)
  | ie :: rest, A =>
    match elstiff m ie with
    | none => (A, true)
    | some ae => assembleLoop m rest (accumElem A (elemAt m ie) ae)

/-- The boundary test of the notebook, (0.0 in node) or (1.0 in node): one of
the two coordinates compares exactly equal to 0 or to 1. -/
def isBoundary (p : Point) : Prop :=
  p.1 = 0 ∨ p.2 = 0 ∨ p.1 = 1 ∨ p.2 = 1

instance (p : Point) : Decidable (isBoundary p) := by
  unfold isBoundary
  infer_instance

/-- The three statements A[i,:] = 0, A[:,i] = 0, A[i,i] = 1, as their net
effect on the matrix. -/
def dirichletStep (A : Mat) (i : ℕ) : Mat := fun a b =>
  if a = i ∧ b = i then 1 else if a = i ∨ b = i then 0 else A a b

/-- The boundary-correction loop over all nodes. -/
def boundaryCorrect (c : List Point) (A : Mat) : Mat :=
  (List.range c.length).foldl
    (fun B i => if isBoundary (c.getD i (0, 0)) then dirichletStep B i else B) A

/-- Function assmblstiff(): a fresh zero global matrix, the element loop, and
on success the boundary correction. On abort (flag true) the partially
accumulated, uncorrected matrix is what remains visible in the global A. -/
def assmblstiff (m : Mesh) : Mat × Bool :=
  let r := assembleLoop m (finestIdx m) (fun _ _ => 0)
  if r.2 then r else (boundaryCorrect m.coord r.1, false)

/-- One element's contribution b[e] += area(ie) * (f[e0]+f[e1]+f[e2]) / 3,
with one increment per listed position, as numpy fancy-index += performs. -/
def loadStep (m : Mesh) (fv : ℕ → ℚ) (b : ℕ → ℚ) (ie : ℕ) : ℕ → ℚ :=
  let e := elemAt m ie
  fun i =>
    if i = e.1 ∨ i = e.2.1 ∨ i = e.2.2 then
      b i + area m ie * (fv e.1 + fv e.2.1 + fv e.2.2) / 3
    else b i

/-- The load accumulation loop of rhs(f) over the finest level, starting from
b = zeros. -/
def loadVec (m : Mesh) (fv : ℕ → ℚ) : ℕ → ℚ :=
  (finestIdx m).foldl (loadStep m fv) (fun _ => 0)

/-- The right-hand side before the final permutation: the entry of every
boundary node is set to 0. -/
def rhsVec (m : Mesh) (fv : ℕ → ℚ) : ℕ → ℚ := fun i =>
  if i < m.coord.length ∧ isBoundary (coordAt m i) then 0 else loadVec m fv i

/-- The value rhs returns: b[perm]. -/
def rhsPermuted (m : Mesh) (fv : ℕ → ℚ) (p : ℕ → ℕ) : ℕ → ℚ :=
  fun i => rhsVec m fv (p i)

/-- The source field of cell f(): the constant -1 at every node. -/
def srcField : ℕ → ℚ := fun _ => -1

/-- Shared solver state: the global matrix A with its dimension, and the
global variables perm and inv_perm; none models a global that has never been
assigned (reading it raises NameError). -/
structure SolverState where
  n : ℕ
  A : Mat
  perm : Option (List ℕ)
  invPerm : Option (List ℕ)

/-- A[p,:][:,p], the symmetric two-sided permutation. -/
def permuteMat (A : Mat) (p : List ℕ) : Mat :=
  fun i j => A (p.getD i 0) (p.getD j 0)

/-- The test np.sum(A != A[perm0,:][:,perm0]) == 0: the matrix compares
entrywise equal, as values, to its permuted image. -/
def isOrdered (n : ℕ) (A : Mat) (p : List ℕ) : Prop :=
  ∀ i < n, ∀ j < n, A i j = permuteMat A p i j

instance (n : ℕ) (A : Mat) (p : List ℕ) : Decidable (isOrdered n A p) := by
  unfold isOrdered
  infer_instance

/-- np.argsort: the indices 0..len-1 sorted by key v[i]. -/
def argsort (v : List ℕ) : List ℕ :=
  (List.range v.length).mergeSort (fun i j => decide (v.getD i 0 ≤ v.getD j 0))

/-- Function reorder_matrix, for the externally computed Cuthill-McKee
permutation perm0: when the matrix already equals its permuted image nothing
at all is assigned (the skip branch only prints), otherwise perm and
inv_perm = argsort(perm) are stored and A is replaced by the permuted
matrix. -/
def reorder_matrix (perm0 : List ℕ) (st : SolverState) : SolverState :=
  if isOrdered st.n st.A perm0 then st
  else { st with A := permuteMat st.A perm0,
                 perm := some perm0,
                 invPerm := some (argsort perm0) }

/-- Contract of the external spsolve on the permuted system: x solves
A[perm,:][:,perm] * x = b, where b is the already permuted right-hand side
returned by rhs. -/
def SolvesPermuted (n : ℕ) (A : Mat) (p : ℕ → ℕ) (b x : ℕ → ℚ) : Prop :=
  ∀ i < n, (∑ j ∈ Finset.range n, A (p i) (p j) * x j) = b i

/-- The reconstruction u = x[inv_perm] performed by solve. -/
def unpermute (x : ℕ → ℚ) (q : ℕ → ℕ) : ℕ → ℚ := fun i => x (q i)

/-- A two-element mesh whose second element is degenerate: its three nodes
are collinear, so all elstiff denominators vanish there. -/
def degMesh : Mesh where
  coord := [(0, 0), (1, 0), (0, 1), (2, 0), (3, 0), (4, 0)]
  elem := [(0, 1, 2), (3, 4, 5)]
  emax := [(0, 1)]

/-- Dimension-1 solver state with the matrix [[1]] and no permutation ever
assigned, as before the first call of reorder_matrix. -/
def st1 : SolverState where
  n := 1
  A := fun i j => if i = 0 ∧ j = 0 then 1 else 0
  perm := none
  invPerm := none

/-- The exact solution of the reordered system of the refine-0 scenario. -/
def x2 : ℕ → ℚ := fun i => if i = 4 then -3/16 else 0

/-- Pairwise distinctness of the three node indices of an element. -/
def distinct3 (e : Element) : Prop := e.1 ≠ e.2.1 ∧ e.1 ≠ e.2.2 ∧ e.2.1 ≠ e.2.2

/-- The three node indices of an element are valid indices into a node list
of length n. -/
def bounded3 (e : Element) (n : ℕ) : Prop := e.1 < n ∧ e.2.1 < n ∧ e.2.2 < n

/-- The count emax[-1][1] - emax[-1][0] + 1 of elements on the finest level. -/
def finestCount (m : Mesh) : ℕ := (finest m).2 + 1 - (finest m).1

section FindNodeLemmas

lemma findNode_eq_none {c : List Point} {p : Point} (h : findNode c p = none) : p ∉ c := by
  induction c with
  | nil => simp
  | cons q rest ih =>
    simp only [findNode] at h
    by_cases hq : q = p
    · simp [hq] at h
    · rw [if_neg hq] at h
      cases hfr : findNode rest p with
      | none =>
        simp only [List.mem_cons, not_or]
        exact ⟨fun hpq => hq hpq.symm, ih hfr⟩
      | some i0 => rw [hfr] at h; simp at h

lemma findNode_eq_some {c : List Point} {p : Point} {i : ℕ}
    (h : findNode c p = some i) : i < c.length ∧ c.getD i (0, 0) = p := by
  induction c generalizing i with
  | nil => simp [findNode] at h
  | cons q rest ih =>
    simp only [findNode] at h
    by_cases hq : q = p
    · simp only [if_pos hq, Option.some.injEq] at h
      subst h
      simpa using hq
    · rw [if_neg hq] at h
      cases hfr : findNode rest p with
      | none => rw [hfr] at h; simp at h
      | some i0 =>
        rw [hfr] at h
        simp only [Option.map_some', Option.some.injEq] at h
        subst h
        obtain ⟨hlt, hget⟩ := ih hfr
        exact ⟨by simpa using Nat.succ_lt_succ hlt, by simpa using hget⟩

lemma addNode_extend (c : List Point) (p : Point) :
    ∃ t, (addNode c p).2 = c ++ t := by
  unfold addNode
  cases h : findNode c p with
  | none => exact ⟨[p], rfl⟩
  | some i => exact ⟨[], by simp⟩

lemma addNode_idx_lt (c : List Point) (p : Point) :
    (addNode c p).1 < (addNode c p).2.length := by
  unfold addNode
  cases h : findNode c p with
  | none => simp
  | some i => simpa using (findNode_eq_some h).1

lemma addNode_getD (c : List Point) (p : Point) :
    (addNode c p).2.getD (addNode c p).1 (0, 0) = p := by
  unfold addNode
  cases h : findNode c p with
  | none =>
    simp only
    rw [List.getD_eq_getElem _ _ (by simp)]
    simp
  | some i => simpa using (findNode_eq_some h).2

lemma addNode_nodup {c : List Point} (p : Point) (h : c.Nodup) :
    (addNode c p).2.Nodup := by
  unfold addNode
  cases hf : findNode c p with
  | none =>
    simp only
    rw [List.nodup_append]
    exact ⟨h, List.nodup_singleton p, by simpa using findNode_eq_none hf⟩
  | some i => simpa using h

lemma getD_extend {c t : List Point} {i : ℕ} (hi : i < c.length) :
    (c ++ t).getD i (0, 0) = c.getD i (0, 0) := by
  rw [List.getD_eq_getElem _ _ (by simp only [List.length_append]; omega),
    List.getD_eq_getElem _ _ hi]
  exact List.getElem_append_left hi

lemma nodup_getD_inj {c : List Point} (h : c.Nodup) {i j : ℕ}
    (hi : i < c.length) (hj : j < c.length)
    (he : c.getD i (0, 0) = c.getD j (0, 0)) : i = j := by
  rw [List.getD_eq_getElem _ _ hi, List.getD_eq_getElem _ _ hj] at he
  exact (List.Nodup.getElem_inj_iff h).mp he

end FindNodeLemmas

section RefineStructure

lemma elemrefine_emax (m : Mesh) (ie : ℕ) : (elemrefine m ie).emax = m.emax := rfl

lemma elemrefine_elem_len (m : Mesh) (ie : ℕ) :
    (elemrefine m ie).elem.length = m.elem.length + 4 := by
  simp [elemrefine]

lemma elemrefine_elem_extend (m : Mesh) (ie : ℕ) :
    ∃ t, (elemrefine m ie).elem = m.elem ++ t :=
  ⟨_, rfl⟩

lemma addNode3_extend (c : List Point) (p q r : Point) :
    ∃ t, (addNode (addNode (addNode c p).2 q).2 r).2 = c ++ t := by
  obtain ⟨t1, h1⟩ := addNode_extend c p
  rw [h1]
  obtain ⟨t2, h2⟩ := addNode_extend (c ++ t1) q
  rw [h2]
  obtain ⟨t3, h3⟩ := addNode_extend ((c ++ t1) ++ t2) r
  rw [h3]
  exact ⟨t1 ++ (t2 ++ t3), by simp [List.append_assoc]⟩

lemma elemrefine_coord_extend (m : Mesh) (ie : ℕ) :
    ∃ t, (elemrefine m ie).coord = m.coord ++ t :=
  addNode3_extend m.coord _ _ _

lemma foldl_elemrefine_facts (L : List ℕ) (m : Mesh) :
    (L.foldl elemrefine m).emax = m.emax ∧
    (L.foldl elemrefine m).elem.length = m.elem.length + 4 * L.length ∧
    (∃ t, (L.foldl elemrefine m).elem = m.elem ++ t) ∧
    (∃ t, (L.foldl elemrefine m).coord = m.coord ++ t) := by
  induction L generalizing m with
  | nil => simp
  | cons ie rest ih =>
    simp only [List.foldl_cons, List.length_cons]
    obtain ⟨h1, h2, ⟨t, ht⟩, ⟨s, hs⟩⟩ := ih (elemrefine m ie)
    obtain ⟨te, hte⟩ := elemrefine_elem_extend m ie
    obtain ⟨tc, htc⟩ := elemrefine_coord_extend m ie
    refine ⟨by rw [h1, elemrefine_emax], ?_, ?_, ?_⟩
    · rw [h2, elemrefine_elem_len]
      ring
    · exact ⟨te ++ t, by rw [ht, hte, List.append_assoc]⟩
    · exact ⟨tc ++ s, by rw [hs, htc, List.append_assoc]⟩

lemma finestIdx_len (m : Mesh) : (finestIdx m).length = finestCount m := by
  simp [finestIdx, finestCount]

lemma refineRound_emax (m : Mesh) :
    (refineRound m).emax =
      m.emax ++ [((finest m).2 + 1, (finest m).2 + 4 * ((finest m).2 + 1 - (finest m).1))] :=
  rfl

lemma refineRound_facts (m : Mesh) (hlen : (finest m).2 + 1 = m.elem.length) :
    (finest (refineRound m)).1 = m.elem.length ∧
    (finest (refineRound m)).2 + 1 = (refineRound m).elem.length ∧
    (refineRound m).elem.length = m.elem.length + 4 * finestCount m ∧
    (∃ t, (refineRound m).elem = m.elem ++ t) ∧
    (∃ t, (refineRound m).coord = m.coord ++ t) ∧
    finestCount (refineRound m) = 4 * finestCount m := by
  have hf : finest (refineRound m) =
      ((finest m).2 + 1, (finest m).2 + 4 * ((finest m).2 + 1 - (finest m).1)) := by
    unfold finest
    rw [refineRound_emax]
    exact List.getLastD_concat _ _ _
  obtain ⟨g1, g2, g3, g4⟩ := foldl_elemrefine_facts (finestIdx m) m
  have hL : (refineRound m).elem.length = m.elem.length + 4 * finestCount m := by
    have : (refineRound m).elem = ((finestIdx m).foldl elemrefine m).elem := rfl
    rw [this, g2, finestIdx_len]
  refine ⟨?_, ?_, hL, ?_, ?_, ?_⟩
  · rw [hf]; omega
  · rw [hf, hL]
    unfold finestCount
    omega
  · obtain ⟨t, ht⟩ := g3
    exact ⟨t, ht⟩
  · obtain ⟨t, ht⟩ := g4
    exact ⟨t, ht⟩
  · unfold finestCount
    rw [hf]
    simp only
    omega

/-- The running level invariant: the finest level ends exactly at the last
element of the element list. -/
def LevInv (m : Mesh) : Prop := (finest m).2 + 1 = m.elem.length

lemma refine_succ (k : ℕ) (m : Mesh) :
    refine (k + 1) m = refineRound (refine k m) := by
  unfold refine
  rw [Function.iterate_succ_apply']

lemma levInv_refine (k : ℕ) :
    LevInv (refine k initial) ∧ finestCount (refine k initial) = 8 * 4 ^ k := by
  induction k with
  | zero => exact ⟨rfl, rfl⟩
  | succ k ih =>
    obtain ⟨h1, h2, h3, _, _, h6⟩ := refineRound_facts (refine k initial) ih.1
    rw [refine_succ]
    refine ⟨h2, ?_⟩
    rw [h6, ih.2, pow_succ]
    ring

end RefineStructure

/-- C4: for every k, after refining k times from the 8-element initial mesh,
the finest level recorded in the level table contains exactly 8 * 4^k
elements, and the level recorded by the next round starts exactly at the end
of the previous element list and ends at the end of the extended element
list, i.e. it spans exactly the newly appended elements, while all earlier
elements remain in the element list (the list only ever grows by
appending). -/
theorem c4_refinement_levels (k : ℕ) :
    finestCount (refine k initial) = 8 * 4 ^ k ∧
    (finest (refine (k + 1) initial)).1 = (refine k initial).elem.length ∧
    (finest (refine (k + 1) initial)).2 + 1 = (refine (k + 1) initial).elem.length ∧
    ∃ t, (refine (k + 1) initial).elem = (refine k initial).elem ++ t := by
  obtain ⟨hinv, hcnt⟩ := levInv_refine k
  obtain ⟨h1, h2, _, h4, _, _⟩ := refineRound_facts (refine k initial) hinv
  rw [refine_succ]
  exact ⟨hcnt, h1, h2, h4⟩

/-- C9: refining the initial mesh twice and then three more times yields
exactly the same element list length, node count and finest-level element
count as refining five times in one call (the rounds compose). -/
theorem c9_refine_compose :
    (refine 3 (refine 2 initial)).elem.length = (refine 5 initial).elem.length ∧
    (refine 3 (refine 2 initial)).coord.length = (refine 5 initial).coord.length ∧
    finestCount (refine 3 (refine 2 initial)) = finestCount (refine 5 initial) := by
  have h : refine 3 (refine 2 initial) = refine 5 initial := by
    show refineRound^[3] (refineRound^[2] initial) = refineRound^[5] initial
    rw [← Function.iterate_add_apply]
  rw [h]
  exact ⟨rfl, rfl, rfl⟩

section NodupInvariant

lemma elemrefine_nodup (m : Mesh) (ie : ℕ) (h : m.coord.Nodup) :
    (elemrefine m ie).coord.Nodup :=
  addNode_nodup _ (addNode_nodup _ (addNode_nodup _ h))

lemma foldl_elemrefine_nodup (L : List ℕ) (m : Mesh) (h : m.coord.Nodup) :
    (L.foldl elemrefine m).coord.Nodup := by
  induction L generalizing m with
  | nil => exact h
  | cons ie rest ih => exact ih (elemrefine m ie) (elemrefine_nodup m ie h)

lemma refineRound_nodup (m : Mesh) (h : m.coord.Nodup) :
    (refineRound m).coord.Nodup :=
  foldl_elemrefine_nodup (finestIdx m) m h

lemma initial_nodup : initial.coord.Nodup := by
  norm_num [initial, Prod.ext_iff]

lemma nodup_refine (k : ℕ) : (refine k initial).coord.Nodup := by
  induction k with
  | zero => exact initial_nodup
  | succ k ih =>
    rw [refine_succ]
    exact refineRound_nodup _ ih

/-- C5: after initialization and after any number of refinement rounds (so
after any sequence of refine calls, which compose round by round), no two
entries of the node list are exactly equal coordinate pairs: every
edge-midpoint insertion goes through addNode, which reuses the index of an
exactly-equal existing node and appends only otherwise. -/
theorem c5_nodes_nodup (k : ℕ) : (refine k initial).coord.Nodup :=
  nodup_refine k

end NodupInvariant

section MidpointLemmas

lemma midp_eq_iff (a b c : Point) :
    midp a b = c ↔ a.1 + b.1 = 2 * c.1 ∧ a.2 + b.2 = 2 * c.2 := by
  unfold midp
  constructor
  · intro h
    rw [Prod.ext_iff] at h
    obtain ⟨h1, h2⟩ := h
    simp only at h1 h2
    constructor <;> linarith
  · rintro ⟨h1, h2⟩
    rw [Prod.ext_iff]
    constructor <;> simp only <;> linarith

lemma midp_ne_of_ne {a b : Point} (h : a ≠ b) : midp a b ≠ a ∧ midp a b ≠ b := by
  constructor <;>
  · intro hc
    rw [midp_eq_iff] at hc
    exact h (Prod.ext_iff.mpr ⟨by linarith [hc.1], by linarith [hc.2]⟩)

lemma midp_inj_iff (a b c d : Point) :
    midp a b = midp c d ↔ a.1 + b.1 = c.1 + d.1 ∧ a.2 + b.2 = c.2 + d.2 := by
  rw [midp_eq_iff]
  unfold midp
  simp only
  constructor <;> rintro ⟨h1, h2⟩ <;> constructor <;> linarith

end MidpointLemmas

section WellFormedElements

instance (e : Element) : Decidable (distinct3 e) := by
  unfold distinct3
  infer_instance

instance (e : Element) (n : ℕ) : Decidable (bounded3 e n) := by
  unfold bounded3
  infer_instance

lemma bounded3_mono {e : Element} {n n2 : ℕ} (hle : n ≤ n2) (h : bounded3 e n) :
    bounded3 e n2 :=
  ⟨lt_of_lt_of_le h.1 hle, lt_of_lt_of_le h.2.1 hle, lt_of_lt_of_le h.2.2 hle⟩

lemma elemrefine_wf (m : Mesh) (ie : ℕ)
    (hnd : m.coord.Nodup) (hie : ie < m.elem.length)
    (hall : ∀ e ∈ m.elem, distinct3 e ∧ bounded3 e m.coord.length) :
    ∀ e2 ∈ (elemrefine m ie).elem,
      distinct3 e2 ∧ bounded3 e2 (elemrefine m ie).coord.length := by
  have hmem : elemAt m ie ∈ m.elem := by
    unfold elemAt
    rw [List.getD_eq_getElem _ _ hie]
    exact List.getElem_mem hie
  obtain ⟨⟨hd1, hd2, hd3⟩, hb1, hb2, hb3⟩ := hall _ hmem
  have hpq : coordAt m (elemAt m ie).1 ≠ coordAt m (elemAt m ie).2.1 := by
    intro hc
    exact hd1 (nodup_getD_inj hnd hb1 hb2 hc)
  have hpr : coordAt m (elemAt m ie).1 ≠ coordAt m (elemAt m ie).2.2 := by
    intro hc
    exact hd2 (nodup_getD_inj hnd hb1 hb3 hc)
  have hqr : coordAt m (elemAt m ie).2.1 ≠ coordAt m (elemAt m ie).2.2 := by
    intro hc
    exact hd3 (nodup_getD_inj hnd hb2 hb3 hc)
  set P := coordAt m (elemAt m ie).1 with hPdef
  set Q := coordAt m (elemAt m ie).2.1 with hQdef
  set R := coordAt m (elemAt m ie).2.2 with hRdef
  set r1 := addNode m.coord (midp P Q) with hr1def
  set r2 := addNode r1.2 (midp Q R) with hr2def
  set r3 := addNode r2.2 (midp P R) with hr3def
  obtain ⟨t1, ht1⟩ := addNode_extend m.coord (midp P Q)
  obtain ⟨t2, ht2⟩ := addNode_extend r1.2 (midp Q R)
  obtain ⟨t3, ht3⟩ := addNode_extend r2.2 (midp P R)
  have l01 : m.coord.length ≤ r1.2.length := by rw [ht1]; simp
  have l12 : r1.2.length ≤ r2.2.length := by rw [ht2]; simp
  have hi1lt : r1.1 < r1.2.length := addNode_idx_lt _ _
  have hi2lt : r2.1 < r2.2.length := addNode_idx_lt _ _
  have hi3lt : r3.1 < r3.2.length := addNode_idx_lt _ _
  have g1 : r3.2.getD r1.1 (0, 0) = midp P Q := by
    rw [ht3, getD_extend (lt_of_lt_of_le hi1lt l12), ht2, getD_extend hi1lt]
    exact addNode_getD _ _
  have g2 : r3.2.getD r2.1 (0, 0) = midp Q R := by
    rw [ht3, getD_extend hi2lt]
    exact addNode_getD _ _
  have g3 : r3.2.getD r3.1 (0, 0) = midp P R := addNode_getD _ _
  have g0 : ∀ i, i < m.coord.length → r3.2.getD i (0, 0) = m.coord.getD i (0, 0) := by
    intro i hi
    rw [ht3, getD_extend (lt_of_lt_of_le (lt_of_lt_of_le hi l01) l12),
        ht2, getD_extend (lt_of_lt_of_le hi l01), ht1, getD_extend hi]
  have gp : r3.2.getD (elemAt m ie).1 (0, 0) = P := g0 _ hb1
  have gq : r3.2.getD (elemAt m ie).2.1 (0, 0) = Q := g0 _ hb2
  have gr : r3.2.getD (elemAt m ie).2.2 (0, 0) = R := g0 _ hb3
  have neq : ∀ u v : ℕ, r3.2.getD u (0, 0) ≠ r3.2.getD v (0, 0) → u ≠ v := by
    intro u v h hc
    exact h (by rw [hc])
  have w1 : midp P Q ≠ P := (midp_ne_of_ne hpq).1
  have w2 : midp P Q ≠ Q := (midp_ne_of_ne hpq).2
  have w3 : midp P R ≠ P := (midp_ne_of_ne hpr).1
  have w4 : midp P R ≠ R := (midp_ne_of_ne hpr).2
  have w5 : midp Q R ≠ Q := (midp_ne_of_ne hqr).1
  have w6 : midp Q R ≠ R := (midp_ne_of_ne hqr).2
  have w7 : midp P Q ≠ midp P R := by
    intro h
    rw [midp_inj_iff] at h
    exact hqr (Prod.ext_iff.mpr ⟨by linarith [h.1], by linarith [h.2]⟩)
  have w8 : midp P Q ≠ midp Q R := by
    intro h
    rw [midp_inj_iff] at h
    exact hpr (Prod.ext_iff.mpr ⟨by linarith [h.1], by linarith [h.2]⟩)
  have w9 : midp P R ≠ midp Q R := by
    intro h
    rw [midp_inj_iff] at h
    exact hpq (Prod.ext_iff.mpr ⟨by linarith [h.1], by linarith [h.2]⟩)
  have helem : (elemrefine m ie).elem =
      m.elem ++ [((elemAt m ie).1, r1.1, r3.1), (r1.1, (elemAt m ie).2.1, r2.1),
                 (r3.1, r2.1, (elemAt m ie).2.2), (r2.1, r3.1, r1.1)] := rfl
  have hcoord : (elemrefine m ie).coord = r3.2 := rfl
  have hlenfin : m.coord.length ≤ r3.2.length := by
    rw [ht3]
    calc m.coord.length ≤ r2.2.length := le_trans l01 l12
    _ ≤ (r2.2 ++ t3).length := by simp
  have hi1fin : r1.1 < r3.2.length := by
    rw [ht3]
    calc r1.1 < r2.2.length := lt_of_lt_of_le hi1lt l12
    _ ≤ (r2.2 ++ t3).length := by simp
  have hi2fin : r2.1 < r3.2.length := by
    rw [ht3]
    calc r2.1 < r2.2.length := hi2lt
    _ ≤ (r2.2 ++ t3).length := by simp
  intro e2 hmem2
  rw [helem, List.mem_append] at hmem2
  rw [hcoord]
  rcases hmem2 with hold | hnew
  · obtain ⟨hda, hba⟩ := hall _ hold
    exact ⟨hda, bounded3_mono hlenfin hba⟩
  · simp only [List.mem_cons, List.not_mem_nil, or_false] at hnew
    rcases hnew with rfl | rfl | rfl | rfl
    · exact ⟨⟨neq _ _ (by rw [gp, g1]; exact Ne.symm w1),
             neq _ _ (by rw [gp, g3]; exact Ne.symm w3),
             neq _ _ (by rw [g1, g3]; exact w7)⟩,
            lt_of_lt_of_le hb1 hlenfin, hi1fin, hi3lt⟩
    · exact ⟨⟨neq _ _ (by rw [g1, gq]; exact w2),
             neq _ _ (by rw [g1, g2]; exact w8),
             neq _ _ (by rw [gq, g2]; exact Ne.symm w5)⟩,
            hi1fin, lt_of_lt_of_le hb2 hlenfin, hi2fin⟩
    · exact ⟨⟨neq _ _ (by rw [g3, g2]; exact w9),
             neq _ _ (by rw [g3, gr]; exact w4),
             neq _ _ (by rw [g2, gr]; exact w6)⟩,
            hi3lt, hi2fin, lt_of_lt_of_le hb3 hlenfin⟩
    · exact ⟨⟨neq _ _ (by rw [g2, g3]; exact Ne.symm w9),
             neq _ _ (by rw [g2, g1]; exact Ne.symm w8),
             neq _ _ (by rw [g3, g1]; exact Ne.symm w7)⟩,
            hi2fin, hi3lt, hi1fin⟩

lemma foldl_elemrefine_wf (L : List ℕ) (m : Mesh)
    (hnd : m.coord.Nodup) (hL : ∀ i ∈ L, i < m.elem.length)
    (hall : ∀ e ∈ m.elem, distinct3 e ∧ bounded3 e m.coord.length) :
    ∀ e ∈ (L.foldl elemrefine m).elem,
      distinct3 e ∧ bounded3 e (L.foldl elemrefine m).coord.length := by
  induction L generalizing m with
  | nil => exact hall
  | cons ie rest ih =>
    simp only [List.foldl_cons]
    refine ih (elemrefine m ie) (elemrefine_nodup m ie hnd) ?_ ?_
    · intro i hi
      rw [elemrefine_elem_len]
      exact lt_of_lt_of_le (hL i (List.mem_cons_of_mem _ hi)) (by omega)
    · exact elemrefine_wf m ie hnd (hL ie (List.mem_cons_self _ _)) hall

lemma refineRound_wf (m : Mesh) (hnd : m.coord.Nodup) (hlev : LevInv m)
    (hall : ∀ e ∈ m.elem, distinct3 e ∧ bounded3 e m.coord.length) :
    ∀ e ∈ (refineRound m).elem, distinct3 e ∧ bounded3 e (refineRound m).coord.length := by
  have hL : ∀ i ∈ finestIdx m, i < m.elem.length := by
    intro i hi
    unfold finestIdx at hi
    simp only [List.mem_map, List.mem_range] at hi
    obtain ⟨k, hk, rfl⟩ := hi
    unfold LevInv at hlev
    omega
  exact foldl_elemrefine_wf (finestIdx m) m hnd hL hall

lemma initial_wf : ∀ e ∈ initial.elem, distinct3 e ∧ bounded3 e initial.coord.length := by
  decide

/-- C10: every element ever placed in the element list (by initialization or
by any refinement round; elements are only ever appended, so membership
after k rounds covers every creation time) has three pairwise-distinct node
indices, each a valid index into the node list. -/
theorem c10_elements_wellformed (k : ℕ) :
    ∀ e ∈ (refine k initial).elem,
      distinct3 e ∧ bounded3 e (refine k initial).coord.length := by
  induction k with
  | zero => exact initial_wf
  | succ k ih =>
    rw [refine_succ]
    exact refineRound_wf _ (nodup_refine k) (levInv_refine k).1 ih

/-- Witness for C10 at the initial mesh and its first element. -/
theorem c10_elements_wellformed_witness :
    (0, 4, 3) ∈ (refine 0 initial).elem ∧
    distinct3 (0, 4, 3) ∧ bounded3 (0, 4, 3) (refine 0 initial).coord.length :=
  ⟨by decide, c10_elements_wellformed 0 (0, 4, 3) (by decide)⟩

end WellFormedElements

section Symmetry

lemma elstiff_symm {m : Mesh} {ie : ℕ} {ae : Fin 3 → Fin 3 → ℚ}
    (h : elstiff m ie = some ae) : ∀ k l, ae k l = ae l k := by
  unfold elstiff at h
  simp only at h
  split at h
  · exact absurd h (by simp)
  · injection h with h
    subst h
    intro k l
    fin_cases k <;> fin_cases l <;> rfl

lemma accumElem_symm {A : Mat} {e : Element} {ae : Fin 3 → Fin 3 → ℚ}
    (hae : ∀ k l, ae k l = ae l k) (hA : ∀ i j, A i j = A j i) (i j : ℕ) :
    accumElem A e ae i j = accumElem A e ae j i := by
  unfold accumElem
  rw [hA i j, Finset.sum_comm]
  congr 1
  refine Finset.sum_congr rfl fun a _ => Finset.sum_congr rfl fun b _ => ?_
  rw [hae b a]
  exact if_congr and_comm rfl rfl

lemma assembleLoop_symm (m : Mesh) (L : List ℕ) :
    ∀ A : Mat, (∀ i j, A i j = A j i) →
      ∀ i j, (assembleLoop m L A).1 i j = (assembleLoop m L A).1 j i := by
  induction L with
  | nil => intro A hA; exact hA
  | cons ie rest ih =>
    intro A hA
    cases h : elstiff m ie with
    | none =>
      simp only [assembleLoop, h]
      exact hA
    | some ae =>
      simp only [assembleLoop, h]
      exact ih _ (accumElem_symm (elstiff_symm h) hA)

lemma dirichletStep_symm {B : Mat} (hB : ∀ i j, B i j = B j i) (v : ℕ) :
    ∀ i j, dirichletStep B v i j = dirichletStep B v j i := by
  intro i j
  unfold dirichletStep
  by_cases h1 : i = v <;> by_cases h2 : j = v <;> simp [h1, h2, hB i j]

lemma boundaryCorrect_symm (c : List Point) (A : Mat) (hA : ∀ i j, A i j = A j i) :
    ∀ i j, boundaryCorrect c A i j = boundaryCorrect c A j i := by
  unfold boundaryCorrect
  generalize List.range c.length = L
  induction L generalizing A with
  | nil => exact hA
  | cons v rest ih =>
    simp only [List.foldl_cons]
    refine ih _ ?_
    show ∀ i j, (if isBoundary (c.getD v (0, 0)) then dirichletStep A v else A) i j
        = (if isBoundary (c.getD v (0, 0)) then dirichletStep A v else A) j i
    by_cases hb : isBoundary (c.getD v (0, 0))
    · rw [if_pos hb]
      exact dirichletStep_symm hA v
    · rw [if_neg hb]
      exact hA

lemma assmblstiff_eq (m : Mesh) :
    assmblstiff m = (if (assembleLoop m (finestIdx m) (fun _ _ => 0)).2 = true
      then assembleLoop m (finestIdx m) (fun _ _ => 0)
      else (boundaryCorrect m.coord (assembleLoop m (finestIdx m) (fun _ _ => 0)).1,
            false)) := rfl

lemma preAssembly_symm (m : Mesh) :
    ∀ i j, (assembleLoop m (finestIdx m) (fun _ _ => 0)).1 i j
      = (assembleLoop m (finestIdx m) (fun _ _ => 0)).1 j i :=
  assembleLoop_symm m (finestIdx m) (fun _ _ => 0) (fun _ _ => rfl)

lemma assmblstiff_symm (m : Mesh) :
    ∀ i j, (assmblstiff m).1 i j = (assmblstiff m).1 j i := by
  intro i j
  rw [assmblstiff_eq]
  by_cases hflag : (assembleLoop m (finestIdx m) (fun _ _ => 0)).2 = true
  · rw [if_pos hflag]
    exact preAssembly_symm m i j
  · rw [if_neg hflag]
    exact boundaryCorrect_symm _ _ (preAssembly_symm m) i j

/-- C7: the assembled global stiffness matrix is symmetric at every index
pair, both before the boundary correction (the raw accumulation loop,
whether or not it ran to completion) and after it (the matrix assmblstiff
leaves in the global A). -/
theorem c7_matrix_symmetry (m : Mesh) (i j : ℕ) :
    (assembleLoop m (finestIdx m) (fun _ _ => 0)).1 i j
      = (assembleLoop m (finestIdx m) (fun _ _ => 0)).1 j i ∧
    (assmblstiff m).1 i j = (assmblstiff m).1 j i :=
  ⟨preAssembly_symm m i j, assmblstiff_symm m i j⟩

end Symmetry

section BoundaryRows

lemma dirichletStep_row_self (B : Mat) (i : ℕ) :
    ∀ k, dirichletStep B i i k = if k = i then 1 else 0 := by
  intro k
  unfold dirichletStep
  by_cases hk : k = i <;> simp [hk]

lemma dirichletStep_row_other {B : Mat} {i : ℕ}
    (hrow : ∀ k, B i k = if k = i then 1 else 0) {v : ℕ} (hvi : v ≠ i) :
    ∀ k, dirichletStep B v i k = if k = i then 1 else 0 := by
  intro k
  unfold dirichletStep
  have hiv : ¬ (i = v) := fun h => hvi h.symm
  by_cases hk : k = v
  · have hki : ¬ (k = i) := by
      rw [hk]
      exact hvi
    rw [if_neg (fun hand => hiv hand.1), if_pos (Or.inr hk), if_neg hki]
  · rw [if_neg (fun hand => hiv hand.1), if_neg (fun hor => hor.elim hiv hk)]
    exact hrow k

lemma bc_fold_row (c : List Point) (i : ℕ) (L : List ℕ) :
    ∀ A : Mat, (∀ v ∈ L, v ≠ i) → (∀ k, A i k = if k = i then 1 else 0) →
      ∀ k, (L.foldl (fun B v => if isBoundary (c.getD v (0, 0)) then dirichletStep B v else B) A) i k
        = if k = i then 1 else 0 := by
  induction L with
  | nil => intro A _ hrow k; exact hrow k
  | cons v rest ih =>
    intro A hv hrow k
    simp only [List.foldl_cons]
    refine ih _ (fun u hu => hv u (List.mem_cons_of_mem _ hu)) ?_ k
    intro k2
    by_cases hb : isBoundary (c.getD v (0, 0))
    · simp only [if_pos hb]
      exact dirichletStep_row_other hrow (hv v (List.mem_cons_self _ _)) k2
    · simp only [if_neg hb]
      exact hrow k2

lemma bc_fold_full (c : List Point) (i : ℕ) (hb : isBoundary (c.getD i (0, 0))) :
    ∀ L : List ℕ, L.Nodup → i ∈ L → ∀ A : Mat, ∀ k,
      (L.foldl (fun B v => if isBoundary (c.getD v (0, 0)) then dirichletStep B v else B) A) i k
        = if k = i then 1 else 0 := by
  intro L
  induction L with
  | nil => intro _ h; simp at h
  | cons v rest ih =>
    intro hnd hmem A k
    simp only [List.foldl_cons]
    by_cases hvi : v = i
    · subst hvi
      have hrest : ∀ u ∈ rest, u ≠ v :=
        fun u hu hc => (List.nodup_cons.mp hnd).1 (hc ▸ hu)
      refine bc_fold_row c v rest _ hrest ?_ k
      intro k2
      simp only [if_pos hb]
      exact dirichletStep_row_self A v k2
    · have hmem2 : i ∈ rest := by
        rcases List.mem_cons.mp hmem with h | h
        · exact absurd h.symm hvi
        · exact h
      exact ih (List.nodup_cons.mp hnd).2 hmem2 _ k

lemma bc_row (c : List Point) (A : Mat) {i : ℕ} (hi : i < c.length)
    (hb : isBoundary (c.getD i (0, 0))) :
    ∀ k, boundaryCorrect c A i k = if k = i then 1 else 0 := by
  intro k
  unfold boundaryCorrect
  exact bc_fold_full c i hb (List.range c.length) (List.nodup_range _)
    (List.mem_range.mpr hi) A k

lemma assmblstiff_flag (m : Mesh) :
    (assmblstiff m).2 = (assembleLoop m (finestIdx m) (fun _ _ => 0)).2 := by
  rw [assmblstiff_eq]
  by_cases hflag : (assembleLoop m (finestIdx m) (fun _ _ => 0)).2 = true
  · rw [if_pos hflag]
  · rw [if_neg hflag]
    have hf : (assembleLoop m (finestIdx m) (fun _ _ => 0)).2 = false := by
      simpa using hflag
    rw [hf]

lemma assmblstiff_success (m : Mesh) (hs : (assmblstiff m).2 = false) :
    (assmblstiff m).1
      = boundaryCorrect m.coord (assembleLoop m (finestIdx m) (fun _ _ => 0)).1 := by
  have hflag : (assembleLoop m (finestIdx m) (fun _ _ => 0)).2 = false := by
    rw [← assmblstiff_flag m]
    exact hs
  rw [assmblstiff_eq, if_neg (by rw [hflag]; simp)]

lemma assembleLoop_flag (m : Mesh) (L : List ℕ) (A : Mat) :
    (assembleLoop m L A).2 = true ↔ ∃ ie ∈ L, elstiff m ie = none := by
  induction L generalizing A with
  | nil => simp [assembleLoop]
  | cons ie rest ih =>
    cases h : elstiff m ie with
    | none =>
      simp only [assembleLoop, h]
      refine ⟨fun _ => ⟨ie, List.mem_cons_self _ _, h⟩, fun _ => ?_⟩
      trivial
    | some ae =>
      simp only [assembleLoop, h]
      rw [ih]
      constructor
      · rintro ⟨u, hu, hnone⟩
        exact ⟨u, List.mem_cons_of_mem _ hu, hnone⟩
      · rintro ⟨u, hu, hnone⟩
        rcases List.mem_cons.mp hu with rfl | hu2
        · rw [h] at hnone
          simp at hnone
        · exact ⟨u, hu2, hnone⟩

/-- C3 (amended part): a degenerate element on the finest level, i.e. one
whose elstiff denominators vanish, makes assembly abort: the returned flag
records the ZeroDivisionError. -/
theorem c3_degenerate_aborts (m : Mesh)
    (hdeg : ∃ ie ∈ finestIdx m, elstiff m ie = none) :
    (assmblstiff m).2 = true := by
  rw [assmblstiff_flag]
  exact (assembleLoop_flag m (finestIdx m) (fun _ _ => 0)).mpr hdeg

end BoundaryRows

/-- C6: in the assembled stiffness matrix (whenever assembly ran to
completion), every node whose coordinates compare exactly equal to 0.0 or
1.0 in either component has its matrix row all zero except a diagonal entry
of exactly 1, and its entry of the pre-permutation load vector is exactly
0, for every source field. -/
theorem c6_boundary_rows (m : Mesh) (fv : ℕ → ℚ) (i : ℕ)
    (hs : (assmblstiff m).2 = false)
    (hi : i < m.coord.length) (hb : isBoundary (coordAt m i)) :
    (∀ j, (assmblstiff m).1 i j = if j = i then 1 else 0) ∧ rhsVec m fv i = 0 := by
  constructor
  · intro j
    rw [assmblstiff_success m hs]
    exact bc_row m.coord _ hi hb j
  · unfold rhsVec
    rw [if_pos ⟨hi, hb⟩]

section InitialScenario

lemma bc_preserve (c : List Point) (A : Mat) (i j : ℕ)
    (hi : ¬ isBoundary (c.getD i (0, 0))) (hj : ¬ isBoundary (c.getD j (0, 0))) :
    boundaryCorrect c A i j = A i j := by
  unfold boundaryCorrect
  have hmain : ∀ L : List ℕ, ∀ B : Mat,
      (∀ v ∈ L, isBoundary (c.getD v (0, 0)) → v ≠ i ∧ v ≠ j) →
      (L.foldl (fun B v => if isBoundary (c.getD v (0, 0)) then dirichletStep B v else B) B) i j
        = B i j := by
    intro L
    induction L with
    | nil => intro B _; rfl
    | cons v rest ih =>
      intro B hv
      simp only [List.foldl_cons]
      rw [ih _ (fun u hu => hv u (List.mem_cons_of_mem _ hu))]
      by_cases hb : isBoundary (c.getD v (0, 0))
      · rw [if_pos hb]
        obtain ⟨hvi, hvj⟩ := hv v (List.mem_cons_self _ _) hb
        unfold dirichletStep
        rw [if_neg (fun hand => hvi hand.1.symm),
            if_neg (fun hor => hor.elim (fun h => hvi h.symm) (fun h => hvj h.symm))]
      · rw [if_neg hb]
  exact hmain _ A (fun v _ hb => ⟨fun hvi => hi (hvi ▸ hb), fun hvj => hj (hvj ▸ hb)⟩)

lemma finestIdx_initial : finestIdx initial = [0, 1, 2, 3, 4, 5, 6, 7] := rfl

lemma preflag_initial : (assembleLoop initial (finestIdx initial) (fun _ _ => 0)).2 = false := by
  by_contra hne
  have hflag : (assembleLoop initial (finestIdx initial) (fun _ _ => 0)).2 = true := by
    revert hne
    cases (assembleLoop initial (finestIdx initial) (fun _ _ => 0)).2 <;> simp
  obtain ⟨ie, hie, hnone⟩ := (assembleLoop_flag _ _ _).mp hflag
  rw [finestIdx_initial] at hie
  fin_cases hie <;>
    (norm_num [elstiff, elemAt, coordAt, initial, area] at hnone;
      exact Option.noConfusion hnone)

lemma flag_initial : (assmblstiff initial).2 = false := by
  rw [assmblstiff_flag]
  exact preflag_initial

lemma A2_eq_bc : (assmblstiff initial).1
    = boundaryCorrect initial.coord (assembleLoop initial (finestIdx initial) (fun _ _ => 0)).1 :=
  assmblstiff_success initial flag_initial

lemma initial_boundary : ∀ i, i < 9 → i ≠ 4 → isBoundary (initial.coord.getD i (0, 0)) := by
  intro i hi hne
  interval_cases i <;>
    first
    | exact absurd rfl hne
    | norm_num [isBoundary, initial]

lemma initial_not_boundary_4 : ¬ isBoundary (initial.coord.getD 4 (0, 0)) := by
  norm_num [isBoundary, initial]

lemma A2_boundary_row : ∀ i, i < 9 → i ≠ 4 →
    ∀ k, (assmblstiff initial).1 i k = if k = i then 1 else 0 := by
  intro i hi hne k
  rw [A2_eq_bc]
  exact bc_row initial.coord _ (by simpa [initial] using hi) (initial_boundary i hi hne) k

lemma pre44 : (assembleLoop initial (finestIdx initial) (fun _ _ => 0)).1 4 4 = 4 := by
  rw [finestIdx_initial]
  norm_num [assembleLoop, elstiff, elemAt, coordAt, initial, area, accumElem, ndIdx,
    Fin.sum_univ_three, Matrix.cons_val_zero, Matrix.cons_val_one, Matrix.head_cons,
    Matrix.cons_val_two, Matrix.tail_cons, Matrix.vecHead, Matrix.vecTail]

lemma A2_44 : (assmblstiff initial).1 4 4 = 4 := by
  rw [A2_eq_bc, bc_preserve _ _ _ _ initial_not_boundary_4 initial_not_boundary_4]
  exact pre44

lemma A2_row4 : ∀ k, k < 9 → (assmblstiff initial).1 4 k = if k = 4 then 4 else 0 := by
  intro k hk
  by_cases he : k = 4
  · subst he
    rw [if_pos rfl]
    exact A2_44
  · rw [if_neg he, assmblstiff_symm initial 4 k, A2_boundary_row k hk he 4,
        if_neg (fun h => he h.symm)]

lemma rhs_boundary0 : ∀ i, i < 9 → i ≠ 4 → rhsVec initial srcField i = 0 := by
  intro i hi hne
  unfold rhsVec
  rw [if_pos ⟨by simpa [initial] using hi, initial_boundary i hi hne⟩]

lemma rhs4 : rhsVec initial srcField 4 = -3/4 := by
  unfold rhsVec
  rw [if_neg (fun hand => initial_not_boundary_4 hand.2)]
  unfold loadVec
  rw [finestIdx_initial]
  norm_num [loadStep, elemAt, initial, area, coordAt, srcField]

lemma x2_solves :
    SolvesPermuted 9 (assmblstiff initial).1 id (rhsPermuted initial srcField id) x2 := by
  intro i hi
  simp only [id_eq, rhsPermuted]
  by_cases he : i = 4
  · subst he
    have hs : ∀ j ∈ Finset.range 9, (assmblstiff initial).1 4 j * x2 j
        = if j = 4 then 4 * x2 j else 0 := by
      intro j hj
      rw [A2_row4 j (Finset.mem_range.mp hj)]
      by_cases hj4 : j = 4
      · rw [if_pos hj4, if_pos hj4]
      · rw [if_neg hj4, if_neg hj4, zero_mul]
    rw [Finset.sum_congr rfl hs, Finset.sum_ite_eq' (Finset.range 9) 4 (fun j => 4 * x2 j),
        if_pos (by norm_num), rhs4]
    norm_num [x2]
  · have hs : ∀ j ∈ Finset.range 9, (assmblstiff initial).1 i j * x2 j
        = if j = i then x2 j else 0 := by
      intro j hj
      rw [A2_boundary_row i hi he j]
      by_cases hji : j = i
      · rw [if_pos hji, if_pos hji, one_mul]
      · rw [if_neg hji, if_neg hji, zero_mul]
    rw [Finset.sum_congr rfl hs, Finset.sum_ite_eq' (Finset.range 9) i (fun j => x2 j),
        if_pos (Finset.mem_range.mpr hi), rhs_boundary0 i hi he]
    simp [x2, he]

/-- C2 (amended): for the initial mesh refined 0 times, assembled, with the
constant source field -1 and the given boundary handling, and any valid
permutation pair used for the reordering, every solution of the permuted
system reconstructs to exactly 0 at every boundary node (all nodes except
index 4) and to exactly -3/16, a strictly negative value, at the interior
center node 4. -/
theorem c2_solution_signs (p q : ℕ → ℕ) (x : ℕ → ℚ)
    (hp : ∀ i, i < 9 → p i < 9) (hq : ∀ i, i < 9 → q i < 9)
    (hqp : ∀ i, i < 9 → q (p i) = i) (hpq : ∀ i, i < 9 → p (q i) = i)
    (hx : SolvesPermuted 9 (assmblstiff (refine 0 initial)).1 p
            (rhsPermuted (refine 0 initial) srcField p) x) :
    unpermute x q 4 = -3/16 ∧ unpermute x q 4 < 0 ∧
    ∀ i, i < 9 → i ≠ 4 → unpermute x q i = 0 := by
  have hx0 : SolvesPermuted 9 (assmblstiff initial).1 p
      (rhsPermuted initial srcField p) x := hx
  have key : ∀ i, i < 9 → (if i = 4 then (4:ℚ) else 1) * x (q i)
      = rhsVec initial srcField i := by
    intro i hi
    have hqi : q i < 9 := hq i hi
    have heq := hx0 (q i) hqi
    simp only [rhsPermuted] at heq
    rw [hpq i hi] at heq
    have hsum : ∑ j ∈ Finset.range 9, (assmblstiff initial).1 i (p j) * x j
        = (if i = 4 then (4:ℚ) else 1) * x (q i) := by
      rw [Finset.sum_eq_single (q i)]
      · rw [hpq i hi]
        by_cases he : i = 4
        · subst he
          rw [A2_44, if_pos rfl]
        · rw [A2_boundary_row i hi he i, if_pos rfl, if_neg he]
      · intro b hb hbne
        have hblt : b < 9 := Finset.mem_range.mp hb
        have hpbne : p b ≠ i := by
          intro hc
          apply hbne
          have h2 : q (p b) = q i := by rw [hc]
          rw [hqp b hblt] at h2
          exact h2
        by_cases he : i = 4
        · subst he
          rw [A2_row4 (p b) (hp b hblt), if_neg hpbne, zero_mul]
        · rw [A2_boundary_row i hi he (p b), if_neg hpbne, zero_mul]
      · intro habs
        exact absurd (Finset.mem_range.mpr hqi) habs
    rw [hsum] at heq
    exact heq
  have h4 := key 4 (by norm_num)
  rw [if_pos rfl, rhs4] at h4
  have hu4 : x (q 4) = -3/16 := by linarith
  refine ⟨hu4, ?_, ?_⟩
  · show x (q 4) < 0
    rw [hu4]
    norm_num
  · intro i hi hne
    have hk := key i hi
    rw [if_neg hne, one_mul, rhs_boundary0 i hi hne] at hk
    exact hk

/-- Witness for C2: the identity permutation pair and the exact solution x2
satisfy every hypothesis of the theorem. -/
theorem c2_solution_signs_witness :
    unpermute x2 id 4 = -3/16 ∧ unpermute x2 id 4 < 0 ∧
    ∀ i, i < 9 → i ≠ 4 → unpermute x2 id i = 0 :=
  c2_solution_signs id id x2 (fun _ hi => hi) (fun _ hi => hi)
    (fun _ _ => rfl) (fun _ _ => rfl) x2_solves

/-- C2 counterexample to the claim as stated: in the refine-0 scenario with
the identity permutation, x2 solves the permuted system exactly, and the
reconstructed value at the interior center node 4 is -3/16, which is not
strictly positive. -/
theorem c2_center_not_positive_cex :
    SolvesPermuted 9 (assmblstiff (refine 0 initial)).1 id
      (rhsPermuted (refine 0 initial) srcField id) x2 ∧
    unpermute x2 id 4 = -3/16 ∧ ¬ (0 < unpermute x2 id 4) := by
  refine ⟨x2_solves, by norm_num [unpermute, x2], by norm_num [unpermute, x2]⟩

/-- C1: evaluated at the failing input — a state whose matrix is the 1-by-1
identity-like matrix [[1]], where the external reverse-Cuthill-McKee
ordering is [0] (which certainly leaves the sparsity pattern invariant) and
no permutation was ever stored — reorder_matrix takes the skip branch and
assigns nothing: perm and inv_perm stay unassigned (none) instead of the
identity, so the later b[perm] of rhs would raise NameError. -/
theorem c1_skip_branch_drops_permutation :
    isOrdered st1.n st1.A [0] ∧
    reorder_matrix [0] st1 = st1 ∧
    (reorder_matrix [0] st1).perm = none ∧
    (reorder_matrix [0] st1).invPerm = none := by
  have hord : isOrdered st1.n st1.A [0] := by
    intro i hi j hj
    have hi1 : i < 1 := hi
    have hj1 : j < 1 := hj
    have hieq : i = 0 := by omega
    have hjeq : j = 0 := by omega
    subst hieq
    subst hjeq
    rfl
  have hskip : reorder_matrix [0] st1 = st1 := by
    unfold reorder_matrix
    rw [if_pos hord]
  exact ⟨hord, hskip, by rw [hskip]; rfl, by rw [hskip]; rfl⟩

/-- C3 counterexample: in the two-element mesh degMesh the second element is
degenerate, so assembly aborts — yet the matrix left visible in shared state
already holds the first element's accumulated contribution: entry (0, 0)
equals 1, not the untouched 0. The failed assembly does commit partial
mutations. -/
theorem c3_partial_state_cex :
    (assmblstiff degMesh).2 = true ∧ (assmblstiff degMesh).1 0 0 = 1 := by
  have hpre : (assembleLoop degMesh (finestIdx degMesh) (fun _ _ => 0)).2 = true := by
    apply (assembleLoop_flag _ _ _).mpr
    refine ⟨1, ?_, ?_⟩
    · rw [show finestIdx degMesh = [0, 1] from rfl]
      norm_num
    · norm_num [elstiff, elemAt, coordAt, degMesh, area]
  constructor
  · rw [assmblstiff_flag]
    exact hpre
  · rw [assmblstiff_eq, if_pos hpre, show finestIdx degMesh = [0, 1] from rfl]
    norm_num [assembleLoop, elstiff, elemAt, coordAt, degMesh, area, accumElem, ndIdx,
      Fin.sum_univ_three, Matrix.cons_val_zero, Matrix.cons_val_one, Matrix.head_cons,
      Matrix.cons_val_two, Matrix.tail_cons, Matrix.vecHead, Matrix.vecTail]

/-- Witness for C3: degMesh has a degenerate element on its finest level, and
the theorem applied to it confirms the abort flag. -/
theorem c3_degenerate_aborts_witness :
    (∃ ie ∈ finestIdx degMesh, elstiff degMesh ie = none) ∧
    (assmblstiff degMesh).2 = true := by
  have hdeg : ∃ ie ∈ finestIdx degMesh, elstiff degMesh ie = none := by
    refine ⟨1, ?_, ?_⟩
    · rw [show finestIdx degMesh = [0, 1] from rfl]
      norm_num
    · norm_num [elstiff, elemAt, coordAt, degMesh, area]
  exact ⟨hdeg, c3_degenerate_aborts degMesh hdeg⟩

/-- Witness for C6 at the initial mesh, boundary node 0, source field -1. -/
theorem c6_boundary_rows_witness :
    (assmblstiff initial).2 = false ∧ 0 < initial.coord.length ∧
    isBoundary (coordAt initial 0) ∧
    ((∀ j, (assmblstiff initial).1 0 j = if j = 0 then 1 else 0) ∧
      rhsVec initial srcField 0 = 0) := by
  have h1 : (assmblstiff initial).2 = false := flag_initial
  have h2 : 0 < initial.coord.length := by norm_num [initial]
  have h3 : isBoundary (coordAt initial 0) := initial_boundary 0 (by norm_num) (by norm_num)
  exact ⟨h1, h2, h3, c6_boundary_rows initial srcField 0 h1 h2 h3⟩

end InitialScenario

section ArgsortInverse

lemma nodup_getD_inj_nat {c : List ℕ} (h : c.Nodup) {i j : ℕ}
    (hi : i < c.length) (hj : j < c.length)
    (he : c.getD i 0 = c.getD j 0) : i = j := by
  rw [List.getD_eq_getElem _ _ hi, List.getD_eq_getElem _ _ hj] at he
  exact (List.Nodup.getElem_inj_iff h).mp he

lemma argsort_inverse (p : List ℕ) (hp : p.Perm (List.range p.length)) :
    ∀ i, i < p.length → (argsort p).getD (p.getD i 0) 0 = i := by
  intro i hi
  have hqperm : (argsort p).Perm (List.range p.length) := List.mergeSort_perm _ _
  have hqlen : (argsort p).length = p.length := by
    rw [hqperm.length_eq, List.length_range]
  have hnodp : p.Nodup := hp.nodup_iff.mpr (List.nodup_range p.length)
  have htrans : ∀ a b c : ℕ,
      (fun u v => decide (p.getD u 0 ≤ p.getD v 0)) a b = true →
      (fun u v => decide (p.getD u 0 ≤ p.getD v 0)) b c = true →
      (fun u v => decide (p.getD u 0 ≤ p.getD v 0)) a c = true := by
    intro a b c hab hbc
    simp only [decide_eq_true_eq] at hab hbc ⊢
    exact le_trans hab hbc
  have htotal : ∀ a b : ℕ,
      ((fun u v => decide (p.getD u 0 ≤ p.getD v 0)) a b
        || (fun u v => decide (p.getD u 0 ≤ p.getD v 0)) b a) = true := by
    intro a b
    simp only [Bool.or_eq_true, decide_eq_true_eq]
    exact Nat.le_total _ _
  have hsorted : List.Pairwise (fun a b => p.getD a 0 ≤ p.getD b 0) (argsort p) := by
    have hs := @List.sorted_mergeSort ℕ (fun u v => decide (p.getD u 0 ≤ p.getD v 0))
      htrans htotal (List.range p.length)
    exact hs.imp (fun hab => by simpa using hab)
  have hmapid : (List.range p.length).map (fun a => p.getD a 0) = p := by
    apply List.ext_getElem
    · simp
    · intro j h1 h2
      simp only [List.getElem_map, List.getElem_range]
      exact List.getD_eq_getElem p 0 h2
  have hperm2 : ((argsort p).map (fun a => p.getD a 0)).Perm (List.range p.length) := by
    have h1 := hqperm.map (fun a => p.getD a 0)
    rw [hmapid] at h1
    exact h1.trans hp
  have hmap : (argsort p).map (fun a => p.getD a 0) = List.range p.length :=
    List.eq_of_perm_of_sorted hperm2 (List.pairwise_map.mpr hsorted)
      (List.sorted_le_range p.length)
  have hkey : ∀ j, j < p.length → p.getD ((argsort p).getD j 0) 0 = j := by
    intro j hj
    have hjq : j < (argsort p).length := by rw [hqlen]; exact hj
    have h2 : ((argsort p).map (fun a => p.getD a 0)).getD j 0
        = (List.range p.length).getD j 0 := by rw [hmap]
    rw [List.getD_eq_getElem ((argsort p).map (fun a => p.getD a 0)) 0 (by simpa using hjq),
      List.getElem_map] at h2
    rw [List.getD_eq_getElem (List.range p.length) 0 (by simpa using hj),
      List.getElem_range] at h2
    rw [List.getD_eq_getElem (argsort p) 0 hjq]
    exact h2
  have hpi : p.getD i 0 < p.length := by
    have hmem : p.getD i 0 ∈ List.range p.length := by
      apply hp.subset
      rw [List.getD_eq_getElem p 0 hi]
      exact List.getElem_mem hi
    simpa using hmem
  have h3 := hkey (p.getD i 0) hpi
  have hqlt : (argsort p).getD (p.getD i 0) 0 < p.length := by
    have hmem : (argsort p).getD (p.getD i 0) 0 ∈ List.range p.length := by
      apply hqperm.subset
      rw [List.getD_eq_getElem _ 0 (by rw [hqlen]; exact hpi)]
      exact List.getElem_mem _
    simpa using hmem
  exact nodup_getD_inj_nat hnodp hqlt hi h3

/-- C8: whenever reorder_matrix stores a permutation pair (the branch in
which the matrix is not already in the computed ordering), the retained
inverse inv_perm = argsort(perm) satisfies inverse[permutation[i]] = i for
every index i in 0..N-1, for every valid permutation perm0 of 0..N-1. -/
theorem c8_inverse_permutation (perm0 : List ℕ) (st : SolverState)
    (hp : perm0.Perm (List.range perm0.length))
    (hno : ¬ isOrdered st.n st.A perm0) :
    (reorder_matrix perm0 st).perm = some perm0 ∧
    (reorder_matrix perm0 st).invPerm = some (argsort perm0) ∧
    ∀ i, i < perm0.length → (argsort perm0).getD (perm0.getD i 0) 0 = i := by
  unfold reorder_matrix
  rw [if_neg hno]
  exact ⟨rfl, rfl, argsort_inverse perm0 hp⟩

/-- A 2-dimensional solver state whose matrix is visibly changed by the swap
permutation, so reorder_matrix takes the storing branch. -/
def stw : SolverState where
  n := 2
  A := fun i j => if i = 0 ∧ j = 0 then 0 else 1
  perm := none
  invPerm := none

/-- Witness for C8 at the swap permutation on the 2-dimensional state. -/
theorem c8_inverse_permutation_witness :
    ([1, 0] : List ℕ).Perm (List.range ([1, 0] : List ℕ).length) ∧
    ¬ isOrdered stw.n stw.A [1, 0] ∧
    ((reorder_matrix [1, 0] stw).perm = some [1, 0] ∧
     (reorder_matrix [1, 0] stw).invPerm = some (argsort [1, 0]) ∧
     ∀ i, i < ([1, 0] : List ℕ).length →
       (argsort [1, 0]).getD (([1, 0] : List ℕ).getD i 0) 0 = i) := by
  have hp : ([1, 0] : List ℕ).Perm (List.range ([1, 0] : List ℕ).length) := by decide
  have hno : ¬ isOrdered stw.n stw.A [1, 0] := by
    intro h
    have h00 := h 0 (by norm_num [stw]) 0 (by norm_num [stw])
    norm_num [permuteMat, stw] at h00
  exact ⟨hp, hno, c8_inverse_permutation [1, 0] stw hp hno⟩

end ArgsortInverse

end SimpleFem
